import Mathlib

/- Verification of the dfjson library: a codec that represents one logical
JSON document as a tree of files and directories.  The encoder (Marshal)
splits a value into (path, fragment) artifacts; the decoder (Unmarshal)
walks the filesystem and splices the fragments back into one byte stream,
optionally tracking a second "incoming" stream when a conflict source
supplies divergent content for a file.

Paths are modelled as slash-normalized strings (the Go code normalizes all
backslashes to forward slashes before use, so the ReplaceAll calls are
modelled as the identity).  Byte buffers are modelled as lists of
characters; the Go code scans buffers rune by rune, so character positions
coincide with the positions found by its scan. -/

namespace DFJ

/-- True when the character is not the path separator. -/
def notSep (c : Char) : Bool := c != '/'

/-- Model of Go filepath.Base for slash-normalized paths: the part after the
last separator. -/
def pathBase (s : String) : String :=
  String.mk ((s.data.reverse.takeWhile notSep).reverse)

/-- Model of Go filepath.Dir for slash-normalized paths: everything before
the last separator, and "." when the path has no separator, as in Go. -/
def pathDir (s : String) : String :=
  match s.data.reverse.dropWhile notSep with
  | [] => "."
  | _ :: rest => String.mk rest.reverse

/-- Whether the first list starts with the second. -/
def listStarts : List Char → List Char → Bool
  | _, [] => true
  | [], _ :: _ => false
  | c :: cs, d :: ds => c == d && listStarts cs ds

/-- Whether the needle occurs contiguously inside the haystack; models Go
strings.Contains. -/
def listHasSub : List Char → List Char → Bool
  | [], needle => needle.isEmpty
  | c :: tl, needle => listStarts (c :: tl) needle || listHasSub tl needle

/-- Substring test on strings; models Go strings.Contains. -/
def hasSub (hay needle : String) : Bool :=
  listHasSub hay.data needle.data

/-- Splits a struct tag at its first comma into (name part, options part);
models the strings.Index logic of the encoder.  When there is no comma the
name is the whole tag and the options are empty. -/
def splitTag : List Char → List Char × List Char
  | [] => ([], [])
  | c :: rest =>
    if c == ',' then ([], rest)
    else
      let p := splitTag rest
      (c :: p.1, p.2)

/-- JSON values as read back out of a byte stream.  Number literals keep
their textual form. -/
inductive JVal where
  | jnull : JVal
  | jbool : Bool → JVal
  | jnum : List Char → JVal
  | jstr : List Char → JVal
  | jarr : List JVal → JVal
  | jobj : List (String × JVal) → JVal

/-- JSON whitespace. -/
def isWs (c : Char) : Bool :=
  c == ' ' || c == '\t' || c == '\n' || c == '\r'

/-- Drops leading JSON whitespace. -/
def skipWs (s : List Char) : List Char := s.dropWhile isWs

/-- Characters that may appear in a number literal (lenient). -/
def isNumChar (c : Char) : Bool :=
  c.isDigit || c == '-' || c == '+' || c == '.' || c == 'e' || c == 'E'

/-- Scans a JSON string body after the opening quote; returns the raw
content and the remainder after the closing quote.  A backslash leniently
accepts any following character. -/
def pStrBody : List Char → Option (List Char × List Char)
  | [] => none
  | c :: rest =>
    if c == '"' then some ([], rest)
    else if c == '\\' then
      match rest with
      | [] => none
      | d :: rest2 => (pStrBody rest2).map (fun p => (c :: d :: p.1, p.2))
    else (pStrBody rest).map (fun p => (c :: p.1, p.2))

mutual

/-- Fueled parser for one JSON value; models the validation done by the
standard library scanner (lenient about number syntax and escapes). -/
def pVal : Nat → List Char → Option (JVal × List Char)
  | 0, _ => none
  | n + 1, s =>
    match skipWs s with
    | [] => none
    | c :: rest =>
      if c == '{' then
        match skipWs rest with
        | '}' :: rest2 => some (JVal.jobj [], rest2)
        | _ => (pMembers n rest).map (fun p => (JVal.jobj p.1, p.2))
      else if c == '[' then
        match skipWs rest with
        | ']' :: rest2 => some (JVal.jarr [], rest2)
        | _ => (pElems n rest).map (fun p => (JVal.jarr p.1, p.2))
      else if c == '"' then
        (pStrBody rest).map (fun p => (JVal.jstr p.1, p.2))
      else if c == 't' then
        if listStarts rest ("rue".data) then some (JVal.jbool true, rest.drop 3)
        else none
      else if c == 'f' then
        if listStarts rest ("alse".data) then some (JVal.jbool false, rest.drop 4)
        else none
      else if c == 'n' then
        if listStarts rest ("ull".data) then some (JVal.jnull, rest.drop 3)
        else none
      else if c.isDigit || c == '-' then
        some (JVal.jnum ((c :: rest).takeWhile isNumChar),
              (c :: rest).dropWhile isNumChar)
      else none

/-- Parses one or more object members from just after the opening brace. -/
def pMembers : Nat → List Char → Option (List (String × JVal) × List Char)
  | 0, _ => none
  | n + 1, s =>
    match skipWs s with
    | '"' :: rest =>
      match pStrBody rest with
      | none => none
      | some (key, rest2) =>
        match skipWs rest2 with
        | ':' :: rest3 =>
          match pVal n rest3 with
          | none => none
          | some (v, rest4) =>
            match skipWs rest4 with
            | ',' :: rest5 =>
              (pMembers n rest5).map (fun p => ((String.mk key, v) :: p.1, p.2))
            | '}' :: rest5 => some ([(String.mk key, v)], rest5)
            | _ => none
        | _ => none
    | _ => none

/-- Parses one or more array elements from just after the opening bracket. -/
def pElems : Nat → List Char → Option (List JVal × List Char)
  | 0, _ => none
  | n + 1, s =>
    match pVal n s with
    | none => none
    | some (v, rest) =>
      match skipWs rest with
      | ',' :: rest2 => (pElems n rest2).map (fun p => (v :: p.1, p.2))
      | ']' :: rest2 => some ([v], rest2)
      | _ => none

end

/-- Parses a complete JSON document: one value followed by only
whitespace. -/
def parseJSON (s : List Char) : Option JVal :=
  match pVal (s.length + 2) s with
  | some (v, rest) => if (skipWs rest).isEmpty then some v else none
  | none => none

/-- Member lookup in a parsed object. -/
def memLookup (k : String) : List (String × JVal) → Option JVal
  | [] => none
  | (k2, v) :: rest => if k == k2 then some v else memLookup k rest

mutual

/-- Fueled equality of JSON values that ignores the ordering of object
members (members of the left side are looked up by key on the right). -/
def jvalEquiv : Nat → JVal → JVal → Bool
  | 0, _, _ => false
  | n + 1, a, b =>
    match a, b with
    | .jnull, .jnull => true
    | .jbool x, .jbool y => x == y
    | .jnum x, .jnum y => x == y
    | .jstr x, .jstr y => x == y
    | .jarr xs, .jarr ys => arrEquiv n xs ys
    | .jobj xs, .jobj ys => xs.length == ys.length && objEquiv n ys xs
    | _, _ => false

/-- Fueled pointwise equivalence of array elements. -/
def arrEquiv : Nat → List JVal → List JVal → Bool
  | 0, _, _ => false
  | _ + 1, [], [] => true
  | n + 1, x :: xs, y :: ys => jvalEquiv n x y && arrEquiv n xs ys
  | _ + 1, _, _ => false

/-- Fueled check that every member of the second list appears (by key) in
the first list with an equivalent value. -/
def objEquiv : Nat → List (String × JVal) → List (String × JVal) → Bool
  | 0, _, _ => false
  | _ + 1, _, [] => true
  | n + 1, ys, (k, v) :: xs =>
    (match memLookup k ys with
     | some w => jvalEquiv n v w
     | none => false) && objEquiv n ys xs

end

/-- Go reflect.Kind distinctions that the encoder inspects. -/
inductive VKind where
  | kStruct : VKind
  | kPtr : VKind
  | kMap : VKind
  | kOther : VKind
deriving DecidableEq

/-- A struct field as seen through reflection, parametrized by the type of
its value: the Go field name, the raw json tag (empty when absent), the
dfjson tag when present, and the unexported / anonymous flags. -/
structure SFieldT (α : Type) where
  goName : String
  jsonTag : String
  dfjsonTag : Option String
  unexported : Bool
  anonymous : Bool
  value : α

/-- In-memory document values as the encoder's reflection walk sees them:
an associative map with stringified keys, a struct, a pointer to a struct,
or a primitive leaf carrying its standard JSON text.  Map keys are carried
already in string form (the source stringifies them with TextMarshaler or
fmt.Sprintf, both external), and map entries are carried in a fixed list
order, standing for one arbitrary iteration order of the Go map. -/
inductive Value where
  | vmap : List (String × Value) → Value
  | vstruct : List (SFieldT Value) → Value
  | vptr : List (SFieldT Value) → Value
  | vprim : List Char → Value

abbrev SField := SFieldT Value

/-- Kind of a modelled value. -/
def vkind : Value → VKind
  | .vstruct _ => .kStruct
  | .vptr _ => .kPtr
  | .vmap _ => .kMap
  | .vprim _ => .kOther

/-- The unexported and embedded-field filter at the top of the encoder's
field loop (lines 106-125, copied by the source from encoding/json).  The
model restricts pointers to pointers-to-struct, so a pointer field's
element kind is Struct. -/
def fieldKept (f : SField) : Bool :=
  if f.anonymous then
    let elemKind := match vkind f.value with
                    | VKind.kPtr => VKind.kStruct
                    | k => k
    !(f.unexported && !(elemKind = VKind.kStruct))
  else !f.unexported

/-- Effective JSON field name: the part of the json tag before the first
comma, or the Go field name when that part is empty (lines 130-139). -/
def effName (f : SField) : String :=
  let p := splitTag f.jsonTag.data
  if p.1.isEmpty then f.goName else String.mk p.1

/-- The options part of the json tag: everything after the first comma. -/
def tagOptions (f : SField) : List Char :=
  (splitTag f.jsonTag.data).2

/-- Whether the field carries the tag dfjson:"distributable" (line 153). -/
def isDistributable (f : SField) : Bool :=
  match f.dfjsonTag with
  | some t => t == "distributable"
  | none => false

/-- Failure modes of the encoder; Go panics are modelled as errors. -/
inductive EncErr where
  | panicStructKind : EncErr
  | panicUnhandledKind : EncErr
  | panicStringOption : EncErr
  | stdlibUnmodelled : EncErr
  | indentError : EncErr
deriving DecidableEq

/-- Inline field serialization delegates to the standard library's
json.Marshal (external to this repository); the model covers primitive
leaves, whose JSON text is carried in the value itself. -/
def stdJson : Value → Option (List Char)
  | .vprim tok => some tok
  | _ => none

/-- One output artifact of the encoder: a file path and its JSON bytes. -/
structure JSONFile where
  Path : String
  Data : List Char

/-- Child path used by the associative (map) branch of the encoder, line
91: directory of the parent path, the key, then "/index.json". -/
def encodeMapChildPath (path k : String) : String :=
  pathDir path ++ "/" ++ k ++ "/index.json"

/-- Child path used for a field tagged dfjson:"distributable", line 160:
directory of the parent path, the field name, then a trailing slash. -/
def encodeFieldChildPath (path name : String) : String :=
  pathDir path ++ "/" ++ name ++ "/"

/-- Path the decoder reads for a discovered subdirectory, line 214 of
decode.go: topDir + "/" + directoryName + "/index.json". -/
def decodeChildPath (topDir d : String) : String :=
  topDir ++ "/" ++ d ++ "/index.json"

/-- Closes a struct fragment and appends its artifact (lines 176-182): the
closing brace is written only when at least one inline field was written,
and the artifact is appended unconditionally. -/
def finishPtr (path : String) :
    Except EncErr (List Char × Bool × List JSONFile) → Except EncErr (List JSONFile)
  | .error e => .error e
  | .ok (buf, hwf, st2) =>
    .ok (st2 ++ [⟨path, if hwf then buf ++ ("\x7d".data) else buf⟩])

mutual

/-- The associative branch (lines 68-95): each entry is encoded at
dir(path)/key/index.json and the map node itself emits no artifact. -/
def encodeEntries : String → List (String × Value) → List JSONFile →
    Except EncErr (List JSONFile)
  | _, [], st => .ok st
  | path, (k, v) :: rest, st =>
    match encodeData (encodeMapChildPath path k) v st with
    | .error e => .error e
    | .ok st2 => encodeEntries path rest st2

/-- The addr-if-struct step before a recursive encode call (lines 84-89
and 153-159) followed by encode's dispatch: a struct value is passed as a
pointer, so both struct and pointer reach the pointer-to-struct branch
(lines 96-182), a map reaches the associative branch, and any other kind
panics. -/
def encodeData : String → Value → List JSONFile → Except EncErr (List JSONFile)
  | path, Value.vstruct fields, st =>
    finishPtr path (encodeFields path fields ("\x7b".data) false st)
  | path, Value.vptr fields, st =>
    finishPtr path (encodeFields path fields ("\x7b".data) false st)
  | path, Value.vmap entries, st => encodeEntries path entries st
  | _, Value.vprim _, _ => .error .panicUnhandledKind

/-- The per-field loop (lines 102-175): skips unexported fields and fields
tagged "-" or with the omitempty option, panics on the "string" option,
distributes fields tagged dfjson:"distributable", and appends every other
field inline. -/
def encodeFields : String → List SField → List Char → Bool → List JSONFile →
    Except EncErr (List Char × Bool × List JSONFile)
  | _, [], buf, hwf, st => .ok (buf, hwf, st)
  | path, f :: rest, buf, hwf, st =>
    if !(fieldKept f) then encodeFields path rest buf hwf st
    else if f.jsonTag == "-" then encodeFields path rest buf hwf st
    else if listHasSub (tagOptions f) ("omitempty".data) then
      encodeFields path rest buf hwf st
    else if listHasSub (tagOptions f) ("string".data) then
      .error .panicStringOption
    else if isDistributable f then
      match encodeData (encodeFieldChildPath path (effName f)) f.value st with
      | .error e => .error e
      | .ok st2 => encodeFields path rest buf hwf st2
    else
      match stdJson f.value with
      | none => .error .stdlibUnmodelled
      | some tok =>
        let buf2 := buf ++ (if hwf then (",".data) else []) ++
                    ("\"".data) ++ (effName f).data ++ ("\":".data) ++ tok
        encodeFields path rest buf2 true st

end

/-- The pointer-to-struct branch as a standalone entry (lines 96-182):
opens the fragment with a brace, walks the fields, and finishes the
node's artifact. -/
def encodePtr (path : String) (fields : List SField) (st : List JSONFile) :
    Except EncErr (List JSONFile) :=
  finishPtr path (encodeFields path fields ("\x7b".data) false st)

/-- The encoder's dispatch on reflect.Kind (encodeState.encode, line 64).
A struct must be passed as a pointer; a map distributes every entry into
its own directory; a pointer-to-struct walks its fields; any other kind
panics. -/
def encode : String → Value → List JSONFile → Except EncErr (List JSONFile)
  | _, Value.vstruct _, _ => .error .panicStructKind
  | path, Value.vmap entries, st => encodeEntries path entries st
  | path, Value.vptr fields, st => encodePtr path fields st
  | _, Value.vprim _, _ => .error .panicUnhandledKind

/-- The unexported marshal entry point (lines 37-43). -/
def marshal (entryFilename : String) (v : Value) : Except EncErr (List JSONFile) :=
  encode entryFilename v []

/-- json.Indent (standard library, external) is a pure re-formatting pass
over one artifact; it is modelled as a JSON validity check returning the
data unchanged, failing exactly when the data is not one complete JSON
document. -/
def jsonIndent (d : List Char) : Option (List Char) :=
  match parseJSON d with
  | some _ => some d
  | none => none

/-- The per-artifact indent loop of marshalIndent (lines 53-60). -/
def indentAll : List JSONFile → Except EncErr (List JSONFile)
  | [] => .ok []
  | jf :: rest =>
    match jsonIndent jf.Data with
    | none => .error .indentError
    | some d2 =>
      match indentAll rest with
      | .error e => .error e
      | .ok rest2 => .ok (⟨jf.Path, d2⟩ :: rest2)

/-- marshalIndent: marshal, then re-indent every artifact (lines 48-62). -/
def marshalIndent (entryFilename : String) (v : Value) :
    Except EncErr (List JSONFile) :=
  match marshal entryFilename v with
  | .error e => .error e
  | .ok l => indentAll l

/-- Marshal: the public encode entry point (lines 32-35). -/
def Marshal (entryFilename : String) (v : Value) : Except EncErr (List JSONFile) :=
  marshalIndent entryFilename v

/-- The decoder's working state: the primary buffer, the incoming buffer,
and the conflict flag (struct decodeState, decode.go lines 18-23). -/
structure DState where
  buf : List Char
  incomingBuf : List Char
  hasMergeConflict : Bool

/-- Scan step for truncateLastBracket: walks the characters keeping the
index of the most recent closing brace. -/
def lastBracketIdxAux : List Char → Nat → Option Nat → Option Nat
  | [], _, acc => acc
  | c :: rest, i, acc =>
    lastBracketIdxAux rest (i + 1) (if c == '\x7d' then some i else acc)

/-- Index of the last closing brace in a buffer; models the rune scan of
truncateLastBracket (decode.go lines 27-36). -/
def lastBracketIdx (data : List Char) : Option Nat :=
  lastBracketIdxAux data 0 none

/-- truncateLastBracket (decode.go lines 26-43): scans the primary buffer
for the last closing brace and truncates both buffers at that index,
reporting whether the operation happened.  Go's bytes.Buffer.Truncate
panics when the index exceeds the buffer's length, which can only happen
to the incoming buffer after divergent conflict content; that panic is
modelled as none. -/
def truncateLastBracket (st : DState) : Option (Bool × DState) :=
  match lastBracketIdx st.buf with
  | some i =>
    if i ≤ st.incomingBuf.length then
      some (true, ⟨st.buf.take i, st.incomingBuf.take i, st.hasMergeConflict⟩)
    else none
  | none => some (false, st)

/-- WriteAll / WriteRuneAll / WriteStringAll (decode.go lines 96-124):
appends the same bytes to both buffers. -/
def writeAll (b : List Char) (st : DState) : DState :=
  ⟨st.buf ++ b, st.incomingBuf ++ b, st.hasMergeConflict⟩

/-- A conflict source: given a path, either declines or supplies the ours
and theirs byte strings for a contested file (the dfvcs.VCSDriver
contract; driver errors are out of scope). -/
def ConflictSource := String → Option (List Char × List Char)

/-- The nil driver: no file is ever contested. -/
def csNone : ConflictSource := fun _ => none

/-- A directory of the modelled filesystem: its files (name and content)
and its immediate subdirectories in filesystem listing order.  The
decoder's directory walk skips non-directory entries, so files and
subdirectories are kept apart. -/
inductive FS where
  | node : List (String × List Char) → List (String × FS) → FS

/-- File lookup by name inside one directory; models os.Open of the entry
file (a missing file is none, matching the not-exist branch). -/
def lookupFile (name : String) : List (String × List Char) → Option (List Char)
  | [] => none
  | (n, d) :: rest => if n == name then some d else lookupFile name rest

mutual

/-- decodeState.decode (decode.go lines 126-225) over the modelled
filesystem.  The FS argument is the directory containing the node's entry
file and path is the entry file's full path.  Step 1 resolves the source
(conflict source, then the file, then nothing), step 2 synthesizes an
opening brace when nothing was read, step 3 splices every subdirectory of
dir(path) in listing order, step 4 closes the object when no closing
bracket is pending.  The truncation panic is propagated as none. -/
def decodeFS (cs : ConflictSource) : FS → String → DState → Option DState
  | FS.node files dirs, path, st0 =>
    let step1 : DState × Bool :=
      match cs path with
      | some (ours, theirs) =>
        (⟨st0.buf ++ ours, st0.incomingBuf ++ theirs, true⟩, true)
      | none =>
        match lookupFile (pathBase path) files with
        | some b => (writeAll b st0, true)
        | none => (st0, false)
    let st1 := step1.1
    let hasOpenedBracket := step1.2
    let hasClosingBracket := step1.2
    let st2 := if !hasOpenedBracket then writeAll ("\x7b".data) st1 else st1
    match decodeChildren cs dirs (pathDir path) hasClosingBracket false st2 with
    | none => none
    | some (st3, closed3) =>
      some (if !closed3 then writeAll ("\x7d".data) st3 else st3)

/-- The subdirectory loop of decode (lines 190-217), threading the
hasClosingBracket and hasWrittenFirstField flags: a later child is
preceded by a comma; the first child first truncates at the last closing
brace of the whole accumulated buffer and, when that happened, reopens
the object with a comma and clears hasClosingBracket. -/
def decodeChildren (cs : ConflictSource) :
    List (String × FS) → String → Bool → Bool → DState → Option (DState × Bool)
  | [], _, closed, _, st => some (st, closed)
  | (d, sub) :: rest, topDir, closed, hwf, st =>
    let afterComma : Option (DState × Bool) :=
      if hwf then some (writeAll (",".data) st, closed)
      else
        match truncateLastBracket st with
        | none => none
        | some (true, st2) => some (writeAll (",".data) st2, false)
        | some (false, st2) => some (st2, closed)
    match afterComma with
    | none => none
    | some (st2, closed2) =>
      let st3 := writeAll (("\"".data) ++ d.data ++ ("\":".data)) st2
      match decodeFS cs sub (decodeChildPath topDir d) st3 with
      | none => none
      | some st4 => decodeChildren cs rest topDir closed2 true st4

end

/-- Runs one decode call from empty buffers (the zero-valued decodeState
of Unmarshal, line 62). -/
def decodeRun (cs : ConflictSource) (fs : FS) (path : String) : Option DState :=
  decodeFS cs fs path ⟨[], [], false⟩

/-- Unmarshal (decode.go lines 57-94): runs decode from the entry path,
parses the primary buffer, and when a conflict was seen also parses the
incoming buffer.  Parse failures (Go panics) and the truncation panic are
none.  Destination typing (the pointer check) is outside the byte-level
model. -/
def Unmarshal (cs : ConflictSource) (fs : FS) (entryPath : String) :
    Option (JVal × Option JVal × Bool) :=
  match decodeRun cs fs entryPath with
  | none => none
  | some st =>
    match parseJSON st.buf with
    | none => none
    | some v =>
      if st.hasMergeConflict then
        match parseJSON st.incomingBuf with
        | none => none
        | some w => some (v, some w, true)
      else some (v, none, false)

/-- Splits a character list at slashes into path segments. -/
def splitOnSlash : List Char → List (List Char)
  | [] => [[]]
  | c :: rest =>
    let r := splitOnSlash rest
    if c == '/' then [] :: r
    else
      match r with
      | [] => [[c]]
      | seg :: more => (c :: seg) :: more

/-- Path segments of an artifact path relative to the base directory:
requires the path to start with base followed by a slash. -/
def relSegs (base path : String) : Option (List String) :=
  if listStarts path.data (base.data ++ ("/".data)) then
    some ((splitOnSlash (path.data.drop (base.data.length + 1))).map String.mk)
  else none

/-- The named subdirectory of a directory listing, when present. -/
def getDir (seg : String) : List (String × FS) → Option FS
  | [] => none
  | (d, sub) :: ds => if d == seg then some sub else getDir seg ds

/-- Replaces the named subdirectory in place, or appends it at the end of
the listing when absent. -/
def setDir (seg : String) (sub : FS) : List (String × FS) → List (String × FS)
  | [] => [(seg, sub)]
  | (d, s) :: ds =>
    if d == seg then (d, sub) :: ds else (d, s) :: setDir seg sub ds

/-- Inserts a file at the given path segments into a directory tree,
creating intermediate directories; the final segment is the file name
(possibly empty, for an artifact path that ends in a slash). -/
def fsInsert : List String → List Char → FS → FS
  | [], _, fs => fs
  | [name], dat, FS.node files dirs => FS.node (files ++ [(name, dat)]) dirs
  | seg :: s2 :: rest, dat, FS.node files dirs =>
    let sub := match getDir seg dirs with
               | some s => s
               | none => FS.node [] []
    FS.node files (setDir seg (fsInsert (s2 :: rest) dat sub) dirs)

/-- Writes the artifacts to disk in list order under the base directory;
an artifact whose path does not live under the base directory is
ignored. -/
def writeArtifacts (base : String) : List JSONFile → FS → FS
  | [], fs => fs
  | jf :: rest, fs =>
    let fs2 := match relSegs base jf.Path with
               | some segs => fsInsert segs jf.Data fs
               | none => fs
    writeArtifacts base rest fs2

/-- The filesystem obtained by writing the artifact list into an empty
directory tree rooted at the base directory. -/
def writeFS (base : String) (l : List JSONFile) : FS :=
  writeArtifacts base l (FS.node [] [])

/- ===== Concrete scenarios used by the testable properties ===== -/

/-- Entry file with a=1 and one subdirectory b whose index file has c=2
(the splice-correctness scenario). -/
def fsSplice : FS :=
  FS.node [("data.json", "\x7b\"a\":1\x7d".data)]
    [("b", FS.node [("index.json", "\x7b\"c\":2\x7d".data)] [])]

/-- Missing entry file and two subdirectories x and y whose index files
both hold the empty object (the empty-entry scenario). -/
def fsEmptyEntry : FS :=
  FS.node [] [("x", FS.node [("index.json", "\x7b\x7d".data)] []),
              ("y", FS.node [("index.json", "\x7b\x7d".data)] [])]

/-- Missing entry file; subdirectory x holds a complete object, while
subdirectory y has no index file and itself contains a subdirectory z
without an index file; listing order is x before y. -/
def fsSiblingBrace : FS :=
  FS.node [] [("x", FS.node [("index.json", "\x7b\"c\":2\x7d".data)] []),
              ("y", FS.node [] [("z", FS.node [] [])])]

/-- A conflict source that reports the entry file contested with
ours a=1 and theirs a=2 and declines everything else. -/
def csContested : ConflictSource := fun p =>
  if p == "D/data.json" then
    some ("\x7b\"a\":1\x7d".data, "\x7b\"a\":2\x7d".data)
  else none

/-- An inline primitive field a with JSON text 1. -/
def fldA : SField := ⟨"a", "", none, false, false, Value.vprim ("1".data)⟩

/-- An inline primitive field c with JSON text 2. -/
def fldC : SField := ⟨"c", "", none, false, false, Value.vprim ("2".data)⟩

/-- A field b tagged dfjson:"distributable" holding a struct with the one
inline field c. -/
def fldB : SField := ⟨"b", "", some ("distributable"), false, false,
  Value.vstruct [fldC]⟩

/-- A field o whose json tag carries the omitempty option. -/
def fldO : SField := ⟨"o", "o,omitempty", none, false, false,
  Value.vprim ("7".data)⟩

/-- A field m tagged dfjson:"distributable" holding a map with one struct
entry k. -/
def fldM : SField := ⟨"m", "", some ("distributable"), false, false,
  Value.vmap [("k", Value.vstruct [fldC])]⟩

/-- A pointer-to-struct with inline a=1 and a distributable struct field
b containing c=2. -/
def vDistStruct : Value := Value.vptr [fldA, fldB]

/-- A pointer-to-struct with zero inline fields and one distributable map
field. -/
def vZeroInline : Value := Value.vptr [fldM]

/- ===== C3: splice correctness ===== -/

/-- C3: for a decode call whose entry file contains the object a=1 and
whose entry directory contains exactly one subdirectory b with an index
file decoding to the object c=2, the decoder produces exactly the byte
stream with keys a and b (identically in both buffers, without conflict),
and that stream parses to an object with exactly the two top-level keys a
and b. -/
theorem c3_splice_correctness :
    decodeRun csNone fsSplice "D/data.json" =
      some ⟨"\x7b\"a\":1,\"b\":\x7b\"c\":2\x7d\x7d".data,
            "\x7b\"a\":1,\"b\":\x7b\"c\":2\x7d\x7d".data, false⟩ ∧
    parseJSON ("\x7b\"a\":1,\"b\":\x7b\"c\":2\x7d\x7d".data) =
      some (JVal.jobj [("a", JVal.jnum ("1".data)),
                       ("b", JVal.jobj [("c", JVal.jnum ("2".data))])]) :=
  ⟨rfl, rfl⟩

/- ===== C8: empty entry ===== -/

/-- C8: for a decode call whose entry file is missing and whose entry
directory contains exactly the subdirectories x and y, each decoding to
the empty object, the decoder treats the missing file as an empty node
and produces the byte stream with keys x and y, which parses to an object
with exactly those two keys bound to empty objects. -/
theorem c8_empty_entry :
    decodeRun csNone fsEmptyEntry "D/data.json" =
      some ⟨"\x7b\"x\":\x7b\x7d,\"y\":\x7b\x7d\x7d".data,
            "\x7b\"x\":\x7b\x7d,\"y\":\x7b\x7d\x7d".data, false⟩ ∧
    parseJSON ("\x7b\"x\":\x7b\x7d,\"y\":\x7b\x7d\x7d".data) =
      some (JVal.jobj [("x", JVal.jobj []), ("y", JVal.jobj [])]) :=
  ⟨rfl, rfl⟩

/- ===== C7: conflict propagation ===== -/

/-- C7: with the entry file flagged contested (ours a=1, theirs a=2) and
no discovered subdirectories, Unmarshal parses the primary buffer to an
object with a=1, parses the incoming buffer to an object with a=2, and
reports a conflict. -/
theorem c7_conflict_propagation :
    Unmarshal csContested (FS.node [] []) "D/data.json" =
      some (JVal.jobj [("a", JVal.jnum ("1".data))],
            some (JVal.jobj [("a", JVal.jnum ("2".data))]), true) :=
  rfl

/- ===== C2: truncation safety (violated by the code) ===== -/

/-- C2 failing input: node y's opening brace was synthesized (its entry
file is missing), yet when y's first child z is processed the decoder
still truncates at the last closing brace of the whole buffer, which is
the brace closing sibling x's completed subtree.  The output nests z
inside x and loses the key y entirely, instead of the intended stream
with x = (c=2) and y = (z = empty). -/
theorem c2_truncation_bug :
    decodeRun csNone fsSiblingBrace "D/data.json" =
      some ⟨"\x7b\"x\":\x7b\"c\":2,\"z\":\x7b\x7d\x7d\x7d".data,
            "\x7b\"x\":\x7b\"c\":2,\"z\":\x7b\x7d\x7d\x7d".data, false⟩ ∧
    parseJSON ("\x7b\"x\":\x7b\"c\":2,\"z\":\x7b\x7d\x7d\x7d".data) =
      some (JVal.jobj [("x", JVal.jobj [("c", JVal.jnum ("2".data)),
                                        ("z", JVal.jobj [])])]) :=
  ⟨rfl, rfl⟩

/- ===== C10: primary-driven truncation ===== -/

/-- C10: truncateLastBracket locates the cut index by scanning only the
primary buffer and truncates both buffers at that same index, so the
result on the incoming buffer is its prefix of a length determined solely
by the primary buffer's content, independent of where the incoming
buffer's own last closing brace lies. -/
theorem c10_primary_driven_truncation
    (buf inc : List Char) (c : Bool) (i : Nat)
    (hi : lastBracketIdx buf = some i) (hlen : i ≤ inc.length) :
    truncateLastBracket ⟨buf, inc, c⟩ =
      some (true, ⟨buf.take i, inc.take i, c⟩) := by
  simp [truncateLastBracket, hi, hlen]

/-- Witness for C10 at a concrete diverged state: the primary buffer's
last brace is at index 1, so the incoming buffer (whose own last brace is
at index 3) is cut after one character. -/
theorem c10_truncation_witness :
    lastBracketIdx ("\x7b\x7d".data) = some 1 ∧
    1 ≤ ("a\x7d\x7d\x7d".data).length ∧
    truncateLastBracket ⟨"\x7b\x7d".data, "a\x7d\x7d\x7d".data, false⟩ =
      some (true, ⟨"\x7b".data, "a".data, false⟩) :=
  ⟨rfl, by decide,
   c10_primary_driven_truncation ("\x7b\x7d".data) ("a\x7d\x7d\x7d".data)
     false 1 rfl (by decide)⟩

/- ===== C1: round-trip (violated for distributable struct fields) ===== -/

/-- The field-for-field JSON view of vDistStruct: a=1 and b holding the
object c=2. -/
def vDistStructView : JVal :=
  JVal.jobj [("a", JVal.jnum ("1".data)),
             ("b", JVal.jobj [("c", JVal.jnum ("2".data))])]

/-- C1 counterexample: Marshal of vDistStruct succeeds, placing the child
artifact at the path with a trailing slash; after writing the artifacts to
disk at their returned paths, decoding the entry path yields a stream
whose b is the empty object, which is not equivalent (even ignoring key
ordering) to the field-for-field view of the original value. -/
theorem c1_counterexample :
    Marshal "D/data.json" vDistStruct =
      .ok [⟨"D/b/", "\x7b\"c\":2\x7d".data⟩,
           ⟨"D/data.json", "\x7b\"a\":1\x7d".data⟩] ∧
    decodeRun csNone
        (writeFS "D" [⟨"D/b/", "\x7b\"c\":2\x7d".data⟩,
                      ⟨"D/data.json", "\x7b\"a\":1\x7d".data⟩])
        "D/data.json" =
      some ⟨"\x7b\"a\":1,\"b\":\x7b\x7d\x7d".data,
            "\x7b\"a\":1,\"b\":\x7b\x7d\x7d".data, false⟩ ∧
    parseJSON ("\x7b\"a\":1,\"b\":\x7b\x7d\x7d".data) =
      some (JVal.jobj [("a", JVal.jnum ("1".data)), ("b", JVal.jobj [])]) ∧
    jvalEquiv 99 (JVal.jobj [("a", JVal.jnum ("1".data)), ("b", JVal.jobj [])])
      vDistStructView = false :=
  ⟨rfl, rfl, rfl, rfl⟩

/- ===== C4: artifact validity (violated for zero-inline-field nodes) ===== -/

/-- C4 counterexample: a struct node with zero inline fields emits an
artifact holding just an opening brace (so the node does yield an
artifact, and an invalid one), and the subsequent indent pass rejects it,
so Marshal returns an error instead of emitting only the distributed
children. -/
theorem c4_counterexample :
    marshal "D/data.json" vZeroInline =
      .ok [⟨"D/m/k/index.json", "\x7b\"c\":2\x7d".data⟩,
           ⟨"D/data.json", "\x7b".data⟩] ∧
    parseJSON ("\x7b".data) = none ∧
    Marshal "D/data.json" vZeroInline = .error EncErr.indentError :=
  ⟨rfl, rfl, rfl⟩

/- ===== C5: on-disk layout convention ===== -/

/-- C5 counterexample: for the concrete value with the distributable
struct field b, the encoder emits the child's content at the path with a
trailing slash, which differs from the path the decoder reads back for a
child b of the entry directory. -/
theorem c5_counterexample :
    marshal "D/data.json" vDistStruct =
      .ok [⟨"D/b/", "\x7b\"c\":2\x7d".data⟩,
           ⟨"D/data.json", "\x7b\"a\":1\x7d".data⟩] ∧
    encodeFieldChildPath "D/data.json" "b" = "D/b/" ∧
    decodeChildPath (pathDir "D/data.json") "b" = "D/b/index.json" ∧
    ("D/b/" : String) ≠ "D/b/index.json" :=
  ⟨rfl, by decide, by decide, by decide⟩

/-- Characters of a string concatenation. -/
theorem strData_append (a b : String) : (a ++ b).data = a.data ++ b.data := rfl

/-- C5 amended: for every parent path and key, the associative (map)
branch of the encoder stores a child's content at exactly the path the
decoder reads back for a discovered subdirectory of the parent's
directory — and since every recursive call on both sides derives child
paths with these same two functions, the convention matches recursively;
a field tagged distributable is instead stored at a trailing-slash path,
which never equals the decoder's read path. -/
theorem c5_amended_layout (p k : String) :
    encodeMapChildPath p k = decodeChildPath (pathDir p) k ∧
    encodeFieldChildPath p k ≠ decodeChildPath (pathDir p) k := by
  refine ⟨rfl, fun h => ?_⟩
  have hlen := congrArg (fun s => s.data.length) h
  simp only [encodeFieldChildPath, decodeChildPath, strData_append,
    List.length_append] at hlen
  simp at hlen

/-- A successful indent pass keeps the artifact list unchanged and means
every artifact's data parses. -/
theorem indentAll_ok : ∀ l l2, indentAll l = .ok l2 →
    l2 = l ∧ ∀ jf ∈ l, (parseJSON jf.Data).isSome = true := by
  intro l
  induction l with
  | nil =>
    intro l2 h
    simp only [indentAll] at h
    cases h
    simp
  | cons jf rest ih =>
    intro l2 h
    simp only [indentAll, jsonIndent] at h
    cases hp : parseJSON jf.Data with
    | none => rw [hp] at h; cases h
    | some w =>
      rw [hp] at h
      cases hr : indentAll rest with
      | error e => rw [hr] at h; cases h
      | ok rest2 =>
        rw [hr] at h
        cases h
        obtain ⟨h1, h2⟩ := ih rest2 hr
        subst h1
        refine ⟨rfl, ?_⟩
        intro x hx
        rcases List.mem_cons.mp hx with h | h
        · subst h; simp [hp]
        · exact h2 x h

/-- For any fuel, a value parsed from a text starting with an opening
brace is an object. -/
theorem pVal_brace : ∀ n t v rest, pVal n ('\x7b' :: t) = some (v, rest) →
    ∃ fs, v = JVal.jobj fs := by
  intro n t v rest h
  cases n with
  | zero => simp [pVal] at h
  | succ m =>
    have hstep : pVal (m + 1) ('\x7b' :: t) =
        (match skipWs t with
         | '\x7d' :: rest2 => some (JVal.jobj [], rest2)
         | _ => (pMembers m t).map fun p => (JVal.jobj p.1, p.2)) := rfl
    rw [hstep] at h
    split at h
    · simp only [Option.some.injEq, Prod.mk.injEq] at h
      exact ⟨[], h.1.symm⟩
    · obtain ⟨q, hq, hfq⟩ := Option.map_eq_some'.mp h
      simp only [Prod.mk.injEq] at hfq
      exact ⟨q.1, hfq.1.symm⟩

/-- A complete parse of a text starting with an opening brace yields an
object. -/
theorem parseJSON_brace (t : List Char) (v : JVal)
    (hp : parseJSON ('\x7b' :: t) = some v) : ∃ fs, v = JVal.jobj fs := by
  unfold parseJSON at hp
  cases hv : pVal (('\x7b' :: t).length + 2) ('\x7b' :: t) with
  | none => rw [hv] at hp; cases hp
  | some p =>
    rw [hv] at hp
    cases hE : (skipWs p.2).isEmpty with
    | false => simp [hE] at hp
    | true =>
      simp [hE] at hp
      subst hp
      exact pVal_brace _ t p.1 p.2 (by rw [hv])

/-- Every artifact appended by the encoder's recursive functions starts
with an opening brace, and the field loop only extends its fragment:
stated for the three mutually recursive functions at once, proved by
strong induction on the size of the recursive argument. -/
theorem enc_artifacts_brace :
    ∀ n : Nat,
      (∀ path es st st2, sizeOf (es : List (String × Value)) ≤ n →
        encodeEntries path es st = .ok st2 →
        ∀ jf ∈ st2, jf ∈ st ∨ ∃ t, jf.Data = '\x7b' :: t) ∧
      (∀ path v st st2, sizeOf (v : Value) ≤ n →
        encodeData path v st = .ok st2 →
        ∀ jf ∈ st2, jf ∈ st ∨ ∃ t, jf.Data = '\x7b' :: t) ∧
      (∀ path l buf hwf st r, sizeOf (l : List SField) ≤ n →
        encodeFields path l buf hwf st = .ok r →
        (∀ jf ∈ r.2.2, jf ∈ st ∨ ∃ t, jf.Data = '\x7b' :: t) ∧
        ∃ t, r.1 = buf ++ t) := by
  intro n
  induction n using Nat.strong_induction_on with
  | _ n ih =>
    refine ⟨?_, ?_, ?_⟩
    · intro path es st st2 hsz h
      cases es with
      | nil =>
        cases h
        intro jf hjf
        exact Or.inl hjf
      | cons e rest =>
        obtain ⟨k, v⟩ := e
        rw [encodeEntries] at h
        cases hE : encodeData (encodeMapChildPath path k) v st with
        | error e2 => rw [hE] at h; cases h
        | ok stm =>
          rw [hE] at h
          intro jf hjf
          have hszr : sizeOf rest < n := by
            have : sizeOf rest < sizeOf ((k, v) :: rest) := by
              simp
            omega
          have hszv : sizeOf v < n := by
            have : sizeOf v < sizeOf ((k, v) :: rest) := by
              simp
              omega
            omega
          rcases ((ih _ hszr).1 path rest stm st2 (Nat.le_refl _) h jf hjf) with
            hmem | hbr
          · exact (ih _ hszv).2.1 (encodeMapChildPath path k) v st stm (Nat.le_refl _) hE jf hmem
          · exact Or.inr hbr
    · intro path v st st2 hsz h
      cases v with
      | vprim tok => cases h
      | vmap entries =>
        have hsze : sizeOf entries < n := by
          have : sizeOf entries < sizeOf (Value.vmap entries) := by
            simp
          omega
        exact (ih _ hsze).1 path entries st st2 (Nat.le_refl _)
          (by rw [← h]; rfl)
      | vstruct fields =>
        have hszf : sizeOf fields < n := by
          have : sizeOf fields < sizeOf (Value.vstruct fields) := by
            simp
          omega
        rw [encodeData] at h
        cases hF : encodeFields path fields ("\x7b".data) false st with
        | error e2 => rw [hF] at h; cases h
        | ok r =>
          rw [hF] at h
          obtain ⟨buf, hwf, stf⟩ := r
          simp only [finishPtr] at h
          cases h
          obtain ⟨hmem, t, hbuf⟩ :=
            (ih _ hszf).2.2 path fields ("\x7b".data) false st _ (Nat.le_refl _) hF
          intro jf hjf
          rcases List.mem_append.mp hjf with hjf2 | hjf2
          · exact hmem jf hjf2
          · right
            have : jf = ⟨path, if hwf = true then buf ++ ("\x7d".data) else buf⟩ :=
              List.mem_singleton.mp hjf2
            subst this
            have hbuf2 : buf = '\x7b' :: t := hbuf
            cases hwf with
            | false => exact ⟨t, hbuf2⟩
            | true => exact ⟨t ++ ("\x7d".data), by simp [hbuf2]⟩
      | vptr fields =>
        have hszf : sizeOf fields < n := by
          have : sizeOf fields < sizeOf (Value.vptr fields) := by
            simp
          omega
        rw [encodeData] at h
        cases hF : encodeFields path fields ("\x7b".data) false st with
        | error e2 => rw [hF] at h; cases h
        | ok r =>
          rw [hF] at h
          obtain ⟨buf, hwf, stf⟩ := r
          simp only [finishPtr] at h
          cases h
          obtain ⟨hmem, t, hbuf⟩ :=
            (ih _ hszf).2.2 path fields ("\x7b".data) false st _ (Nat.le_refl _) hF
          intro jf hjf
          rcases List.mem_append.mp hjf with hjf2 | hjf2
          · exact hmem jf hjf2
          · right
            have : jf = ⟨path, if hwf = true then buf ++ ("\x7d".data) else buf⟩ :=
              List.mem_singleton.mp hjf2
            subst this
            have hbuf2 : buf = '\x7b' :: t := hbuf
            cases hwf with
            | false => exact ⟨t, hbuf2⟩
            | true => exact ⟨t ++ ("\x7d".data), by simp [hbuf2]⟩
    · intro path l buf hwf st r hsz h
      cases l with
      | nil =>
        cases h
        exact ⟨fun jf hjf => Or.inl hjf, [], by simp⟩
      | cons f rest =>
        have hszr : sizeOf rest < n := by
          have : sizeOf rest < sizeOf (f :: rest) := by
            simp
          omega
        have hszfv : sizeOf f.value < n := by
          have h1 : sizeOf f.value < sizeOf f := by
            cases f
            simp
          have h2 : sizeOf f < sizeOf (f :: rest) := by
            simp
            omega
          omega
        rw [encodeFields] at h
        by_cases h1 : (!fieldKept f) = true
        · rw [if_pos h1] at h
          exact (ih _ hszr).2.2 path rest buf hwf st r (Nat.le_refl _) h
        · rw [if_neg h1] at h
          by_cases h2 : (f.jsonTag == "-") = true
          · rw [if_pos h2] at h
            exact (ih _ hszr).2.2 path rest buf hwf st r (Nat.le_refl _) h
          · rw [if_neg h2] at h
            by_cases h3 : listHasSub (tagOptions f) ("omitempty".data) = true
            · rw [if_pos h3] at h
              exact (ih _ hszr).2.2 path rest buf hwf st r (Nat.le_refl _) h
            · rw [if_neg h3] at h
              by_cases h4 : listHasSub (tagOptions f) ("string".data) = true
              · rw [if_pos h4] at h
                cases h
              · rw [if_neg h4] at h
                by_cases h5 : isDistributable f = true
                · rw [if_pos h5] at h
                  cases hE : encodeData (encodeFieldChildPath path (effName f)) f.value st with
                  | error e2 => rw [hE] at h; cases h
                  | ok st3 =>
                    rw [hE] at h
                    obtain ⟨hmem, hext⟩ :=
                      (ih _ hszr).2.2 path rest buf hwf st3 r (Nat.le_refl _) h
                    refine ⟨?_, hext⟩
                    intro jf hjf
                    rcases hmem jf hjf with hm | hb
                    · exact (ih _ hszfv).2.1 (encodeFieldChildPath path (effName f))
                        f.value st st3 (Nat.le_refl _) hE jf hm
                    · exact Or.inr hb
                · rw [if_neg h5] at h
                  cases hS : stdJson f.value with
                  | none => rw [hS] at h; cases h
                  | some tok =>
                    rw [hS] at h
                    obtain ⟨hmem, t, hext⟩ :=
                      (ih _ hszr).2.2 path rest
                        (buf ++ (if hwf then (",".data) else []) ++
                          ("\"".data) ++ (effName f).data ++ ("\":".data) ++ tok)
                        true st r (Nat.le_refl _) h
                    refine ⟨hmem, ?_⟩
                    exact ⟨(if hwf then (",".data) else []) ++
                      ("\"".data) ++ (effName f).data ++ ("\":".data) ++ tok ++ t,
                      by simp [hext]⟩

/-- C4 amended: every artifact in a list successfully returned by
Marshal parses alone to a complete valid JSON object. -/
theorem c4_amended_artifact_validity (p : String) (v : Value)
    (L : List JSONFile) (h : Marshal p v = .ok L) :
    ∀ jf ∈ L, ∃ fs, parseJSON jf.Data = some (JVal.jobj fs) := by
  unfold Marshal marshalIndent at h
  cases hm : marshal p v with
  | error e => rw [hm] at h; cases h
  | ok raw =>
    rw [hm] at h
    obtain ⟨hL, hparse⟩ := indentAll_ok raw L h
    subst hL
    intro jf hjf
    have hbrace : jf ∈ ([] : List JSONFile) ∨ ∃ t, jf.Data = '\x7b' :: t := by
      unfold marshal at hm
      cases v with
      | vstruct fields => cases hm
      | vprim tok => cases hm
      | vmap entries =>
        exact (enc_artifacts_brace (sizeOf (Value.vmap entries))).2.1 p
          (Value.vmap entries) [] L (Nat.le_refl _) (by rw [← hm]; rfl) jf hjf
      | vptr fields =>
        exact (enc_artifacts_brace (sizeOf (Value.vptr fields))).2.1 p
          (Value.vptr fields) [] L (Nat.le_refl _) (by rw [← hm]; rfl) jf hjf
    rcases hbrace with hmem | ⟨t, hdata⟩
    · cases hmem
    · have := hparse jf hjf
      rw [hdata] at this
      cases hpj : parseJSON ('\x7b' :: t) with
      | none => rw [hpj] at this; cases this
      | some w =>
        obtain ⟨fs, hfs⟩ := parseJSON_brace t w hpj
        rw [hdata, hpj, hfs]
        exact ⟨fs, rfl⟩

/-- Witness for C4 amended at a concrete accepted value: a struct with
the single inline field a. -/
theorem c4_amended_witness :
    Marshal "D/data.json" (Value.vptr [fldA]) =
      .ok [⟨"D/data.json", "\x7b\"a\":1\x7d".data⟩] ∧
    ∀ jf ∈ [(⟨"D/data.json", "\x7b\"a\":1\x7d".data⟩ : JSONFile)],
      ∃ fs, parseJSON jf.Data = some (JVal.jobj fs) :=
  ⟨rfl, c4_amended_artifact_validity "D/data.json" (Value.vptr [fldA]) _ rfl⟩

/- ===== C6: no-conflict identity ===== -/

/-- The two buffers in lock-step and no conflict seen. -/
def Sync (st : DState) : Prop :=
  st.buf = st.incomingBuf ∧ st.hasMergeConflict = false

/-- An index produced by the bracket scan is the carried accumulator or
lies within the scanned segment. -/
theorem lastBracketIdxAux_bound : ∀ (l : List Char) (i : Nat) (acc : Option Nat)
    (j : Nat), lastBracketIdxAux l i acc = some j →
    acc = some j ∨ (i ≤ j ∧ j < i + l.length) := by
  intro l
  induction l with
  | nil =>
    intro i acc j h
    exact Or.inl h
  | cons c rest ih =>
    intro i acc j h
    rw [lastBracketIdxAux] at h
    rcases ih (i + 1) _ j h with hacc | hbound
    · by_cases hc : (c == '\x7d') = true
      · rw [if_pos hc] at hacc
        right
        injection hacc with hji
        subst hji
        simp
      · rw [if_neg hc] at hacc
        exact Or.inl hacc
    · right
      refine ⟨by omega, ?_⟩
      simp only [List.length_cons]
      omega

/-- The last-bracket index lies within the buffer. -/
theorem lastBracketIdx_lt (l : List Char) (j : Nat)
    (h : lastBracketIdx l = some j) : j < l.length := by
  rcases lastBracketIdxAux_bound l 0 none j h with h1 | h2
  · cases h1
  · omega

/-- Writing the same bytes to both buffers preserves lock-step. -/
theorem writeAll_sync (b : List Char) (st : DState) (hs : Sync st) :
    Sync (writeAll b st) := by
  obtain ⟨h1, h2⟩ := hs
  exact ⟨by simp [writeAll, h1], by simp [writeAll, h2]⟩

/-- On a lock-step state the truncation never panics and preserves
lock-step. -/
theorem truncate_sync (st : DState) (hs : Sync st) :
    ∃ b st2, truncateLastBracket st = some (b, st2) ∧ Sync st2 := by
  obtain ⟨hb, hf⟩ := hs
  unfold truncateLastBracket
  cases hi : lastBracketIdx st.buf with
  | none => exact ⟨false, st, rfl, hb, hf⟩
  | some i =>
    have hlt : i < st.buf.length := lastBracketIdx_lt _ _ hi
    have hle : i ≤ st.incomingBuf.length := by rw [← hb]; omega
    exact ⟨true, ⟨st.buf.take i, st.incomingBuf.take i, st.hasMergeConflict⟩,
      by simp [hle], by simp [Sync, hb], hf⟩

/-- With a conflict source that never contests, decode and its child loop
always succeed and keep the two buffers identical with the flag low;
proved for both mutually recursive functions by strong induction on the
size of the filesystem argument. -/
theorem decode_sync :
    ∀ n : Nat, ∀ cs : ConflictSource, (∀ p, cs p = none) →
      (∀ fs path st, sizeOf (fs : FS) ≤ n → Sync st →
        ∃ st2, decodeFS cs fs path st = some st2 ∧ Sync st2) ∧
      (∀ l topDir closed hwf st, sizeOf (l : List (String × FS)) ≤ n → Sync st →
        ∃ r, decodeChildren cs l topDir closed hwf st = some r ∧ Sync r.1) := by
  intro n
  induction n using Nat.strong_induction_on with
  | _ n ih =>
    intro cs hcs
    refine ⟨?_, ?_⟩
    · intro fs path st hsz hsync
      obtain ⟨files, dirs⟩ := fs
      have hszd : sizeOf dirs < n := by
        have : sizeOf dirs < sizeOf (FS.node files dirs) := by
          simp
        omega
      cases hfl : lookupFile (pathBase path) files with
      | some b =>
        obtain ⟨⟨rst, rcl⟩, hr, hsr⟩ := ((ih _ hszd) cs hcs).2 dirs (pathDir path)
          true false (writeAll b st) (Nat.le_refl _) (writeAll_sync b st hsync)
        refine ⟨if !rcl then writeAll (['\x7d']) rst else rst, ?_, ?_⟩
        · rw [decodeFS]
          rw [hcs path]
          dsimp only
          rw [hfl]
          dsimp only
          simp only [Bool.not_true, Bool.false_eq_true, if_false]
          rw [hr]
        · cases rcl with
          | true => simpa using hsr
          | false => simpa using writeAll_sync _ _ hsr
      | none =>
        obtain ⟨⟨rst, rcl⟩, hr, hsr⟩ := ((ih _ hszd) cs hcs).2 dirs (pathDir path)
          false false (writeAll (['\x7b']) st) (Nat.le_refl _)
          (writeAll_sync _ st hsync)
        refine ⟨if !rcl then writeAll (['\x7d']) rst else rst, ?_, ?_⟩
        · rw [decodeFS]
          rw [hcs path]
          dsimp only
          rw [hfl]
          dsimp only
          simp only [Bool.not_false, if_true]
          rw [hr]
        · cases rcl with
          | true => simpa using hsr
          | false => simpa using writeAll_sync _ _ hsr
    · intro l topDir closed hwf st hsz hsync
      cases l with
      | nil => exact ⟨(st, closed), rfl, hsync⟩
      | cons e rest =>
        obtain ⟨d, sub⟩ := e
        have hszs : sizeOf sub < n := by
          have : sizeOf sub < sizeOf ((d, sub) :: rest) := by
            simp
            omega
          omega
        have hszr : sizeOf rest < n := by
          have : sizeOf rest < sizeOf ((d, sub) :: rest) := by
            simp
          omega
        cases hwf with
        | true =>
          have hs2 : Sync (writeAll ([',']) st) := writeAll_sync _ st hsync
          have hs3 : Sync (writeAll (['\x22'] ++ d.data ++ ['\x22', ':'])
              (writeAll ([',']) st)) := writeAll_sync _ _ hs2
          obtain ⟨st4, h4, hs4⟩ := ((ih _ hszs) cs hcs).1 sub
            (decodeChildPath topDir d) _ (Nat.le_refl _) hs3
          obtain ⟨r, hr, hsr⟩ := ((ih _ hszr) cs hcs).2 rest topDir closed true
            st4 (Nat.le_refl _) hs4
          refine ⟨r, ?_, hsr⟩
          rw [decodeChildren]
          dsimp only
          simp only [if_true]
          rw [h4]
          dsimp only
          rw [hr]
        | false =>
          obtain ⟨b, st2, htr, hs2⟩ := truncate_sync st hsync
          cases b with
          | true =>
            have hs2b : Sync (writeAll ([',']) st2) := writeAll_sync _ _ hs2
            have hs3 : Sync (writeAll (['\x22'] ++ d.data ++ ['\x22', ':'])
                (writeAll ([',']) st2)) := writeAll_sync _ _ hs2b
            obtain ⟨st4, h4, hs4⟩ := ((ih _ hszs) cs hcs).1 sub
              (decodeChildPath topDir d) _ (Nat.le_refl _) hs3
            obtain ⟨r, hr, hsr⟩ := ((ih _ hszr) cs hcs).2 rest topDir false true
              st4 (Nat.le_refl _) hs4
            refine ⟨r, ?_, hsr⟩
            rw [decodeChildren]
            dsimp only
            simp only [Bool.false_eq_true, if_false]
            rw [htr]
            dsimp only
            rw [h4]
            dsimp only
            rw [hr]
          | false =>
            have hs3 : Sync (writeAll (['\x22'] ++ d.data ++ ['\x22', ':']) st2) :=
              writeAll_sync _ _ hs2
            obtain ⟨st4, h4, hs4⟩ := ((ih _ hszs) cs hcs).1 sub
              (decodeChildPath topDir d) _ (Nat.le_refl _) hs3
            obtain ⟨r, hr, hsr⟩ := ((ih _ hszr) cs hcs).2 rest topDir closed true
              st4 (Nat.le_refl _) hs4
            refine ⟨r, ?_, hsr⟩
            rw [decodeChildren]
            dsimp only
            simp only [Bool.false_eq_true, if_false]
            rw [htr]
            dsimp only
            rw [h4]
            dsimp only
            rw [hr]

/-- C6: for every decode call in which the conflict source never reports
a file as contested (the nil driver included), the call finishes with the
primary and incoming buffers byte-for-byte identical and the conflict
flag false. -/
theorem c6_no_conflict_identity (cs : ConflictSource) (hcs : ∀ p, cs p = none)
    (fs : FS) (path : String) :
    ∃ st, decodeRun cs fs path = some st ∧
      st.buf = st.incomingBuf ∧ st.hasMergeConflict = false := by
  obtain ⟨st, h1, h2, h3⟩ := ((decode_sync (sizeOf fs) cs hcs).1 fs path
    ⟨[], [], false⟩ (Nat.le_refl _) ⟨rfl, rfl⟩)
  exact ⟨st, h1, h2, h3⟩

/-- Witness for C6 at the nil driver and the splice scenario. -/
theorem c6_no_conflict_witness :
    (∀ p, csNone p = none) ∧
    ∃ st, decodeRun csNone fsSplice "D/data.json" = some st ∧
      st.buf = st.incomingBuf ∧ st.hasMergeConflict = false :=
  ⟨fun _ => rfl,
   c6_no_conflict_identity csNone (fun _ => rfl) fsSplice "D/data.json"⟩

/- ===== C1: round-trip, amended ===== -/

/-- JSON text of a primitive leaf. -/
def primTok : Value → List Char
  | .vprim tok => tok
  | _ => []

/-- Canonical inline text of one struct field. -/
def fieldText (f : SField) : List Char :=
  ['\x22'] ++ f.goName.data ++ ['\x22', ':'] ++ primTok f.value

/-- Comma-prefixed text of every further struct field. -/
def restFieldsText : List SField → List Char
  | [] => []
  | f :: rest => [','] ++ fieldText f ++ restFieldsText rest

/-- Comma-joined text of struct fields. -/
def fieldsText : List SField → List Char
  | [] => []
  | f :: rest => fieldText f ++ restFieldsText rest

/-- Canonical JSON object text of a struct with the given fields. -/
def structText (fields : List SField) : List Char :=
  ['\x7b'] ++ fieldsText fields ++ ['\x7d']

/-- The field list of a struct-shaped value. -/
def structFieldsOf : Value → List SField
  | .vstruct fs => fs
  | .vptr fs => fs
  | _ => []

/-- Canonical member text of one map entry (a struct value). -/
def entryText (e : String × Value) : List Char :=
  ['\x22'] ++ e.1.data ++ ['\x22', ':'] ++ structText (structFieldsOf e.2)

/-- Comma-prefixed text of every further map entry. -/
def restEntriesText : List (String × Value) → List Char
  | [] => []
  | e :: rest => [','] ++ entryText e ++ restEntriesText rest

/-- Comma-joined text of map entries. -/
def entriesText : List (String × Value) → List Char
  | [] => []
  | e :: rest => entryText e ++ restEntriesText rest

/-- Canonical JSON serialization of the round-trip classes, written from
the spec's description of the document text: a struct or
pointer-to-struct is the object text of its fields, an associative map is
an object with one member per entry. -/
def valueText : Value → List Char
  | .vptr fields => structText fields
  | .vstruct fields => structText fields
  | .vmap entries => ['\x7b'] ++ entriesText entries ++ ['\x7d']
  | .vprim tok => tok

/-- A plain inline field: exported, not embedded, untagged, holding a
primitive leaf. -/
def PlainField (f : SField) : Prop :=
  f.jsonTag = "" ∧ f.dfjsonTag = none ∧ f.unexported = false ∧
  f.anonymous = false ∧ ∃ tok, f.value = Value.vprim tok

/-- A key that names exactly one directory: nonempty and slash-free. -/
def GoodKey (k : String) : Prop := k ≠ "" ∧ ('/' : Char) ∉ k.data

/-- The round-trip class of the amended claim: a pointer-to-struct of
plain inline fields, or an associative map of such structs keyed by
distinct good keys. -/
inductive GoodValue : Value → Prop where
  | ptr : ∀ fields, fields ≠ [] → (∀ f ∈ fields, PlainField f) →
      GoodValue (Value.vptr fields)
  | map : ∀ entries,
      (∀ e ∈ entries, ∃ fields, e.2 = Value.vstruct fields ∧ fields ≠ [] ∧
        ∀ f ∈ fields, PlainField f) →
      (∀ e ∈ entries, GoodKey e.1) →
      (entries.map Prod.fst).Nodup →
      GoodValue (Value.vmap entries)

/-- A prefix followed by anything starts with that prefix. -/
theorem listStarts_append : ∀ (a b : List Char), listStarts (a ++ b) a = true := by
  intro a
  induction a with
  | nil => intro b; cases b <;> rfl
  | cons c rest ih =>
    intro b
    simp [listStarts, ih]

/-- Dropping while the predicate holds skips a segment where it always
holds. -/
theorem dropWhile_append_all (p : Char → Bool) :
    ∀ (a l : List Char), (∀ x ∈ a, p x = true) →
    List.dropWhile p (a ++ l) = List.dropWhile p l := by
  intro a
  induction a with
  | nil => intro l _; rfl
  | cons c rest ih =>
    intro l hall
    have hc : p c = true := hall c (by simp)
    simp only [List.cons_append, List.dropWhile, hc]
    exact ih l (fun x hx => hall x (by simp [hx]))

/-- Taking while the predicate holds keeps an all-true segment and stops
at a failing head. -/
theorem takeWhile_append_all (p : Char → Bool) :
    ∀ (a : List Char) (y : Char) (l : List Char), (∀ x ∈ a, p x = true) →
    p y = false → List.takeWhile p (a ++ y :: l) = a := by
  intro a
  induction a with
  | nil =>
    intro y l _ hy
    simp [List.takeWhile, hy]
  | cons c rest ih =>
    intro y l hall hy
    have hc : p c = true := hall c (by simp)
    simp only [List.cons_append, List.takeWhile, hc]
    show c :: List.takeWhile p (rest ++ y :: l) = c :: rest
    rw [ih y l (fun x hx => hall x (by simp [hx])) hy]

/-- Base name of a path whose final segment is slash-free. -/
theorem pathBase_append (X f : String) (hf : ('/' : Char) ∉ f.data) :
    pathBase (X ++ "/" ++ f) = f := by
  unfold pathBase
  have hdata : (X ++ "/" ++ f).data = (X.data ++ ['/']) ++ f.data := rfl
  rw [hdata, List.reverse_append]
  have hall : ∀ x ∈ f.data.reverse, notSep x = true := by
    intro x hx
    have hxf : x ∈ f.data := List.mem_reverse.mp hx
    have : x ≠ '/' := fun hEq => hf (hEq ▸ hxf)
    simp [notSep, this]
  have hsep : notSep '/' = false := by simp [notSep]
  have hrev : (X.data ++ ['/']).reverse = '/' :: X.data.reverse := by
    simp
  rw [hrev, takeWhile_append_all notSep f.data.reverse '/' X.data.reverse hall hsep]
  simp

/-- Directory of a path whose final segment is slash-free. -/
theorem pathDir_append (X f : String) (hf : ('/' : Char) ∉ f.data) :
    pathDir (X ++ "/" ++ f) = X := by
  unfold pathDir
  have hdata : (X ++ "/" ++ f).data = (X.data ++ ['/']) ++ f.data := rfl
  rw [hdata, List.reverse_append]
  have hall : ∀ x ∈ f.data.reverse, notSep x = true := by
    intro x hx
    have hxf : x ∈ f.data := List.mem_reverse.mp hx
    have : x ≠ '/' := fun hEq => hf (hEq ▸ hxf)
    simp [notSep, this]
  have hrev : (X.data ++ ['/']).reverse = '/' :: X.data.reverse := by
    simp
  rw [hrev, dropWhile_append_all notSep f.data.reverse ('/' :: X.data.reverse) hall]
  have hsep : notSep '/' = false := by simp [notSep]
  simp only [List.dropWhile, hsep]
  simp

/-- Splitting a slash-free list yields one segment. -/
theorem splitOnSlash_noSlash : ∀ (l : List Char), ('/' : Char) ∉ l →
    splitOnSlash l = [l] := by
  intro l
  induction l with
  | nil => intro _; rfl
  | cons c rest ih =>
    intro hni
    have hc : c ≠ '/' := fun hEq => hni (hEq ▸ List.mem_cons_self c rest)
    have hrest : ('/' : Char) ∉ rest := fun hx => hni (List.mem_cons_of_mem c hx)
    rw [splitOnSlash]
    rw [ih hrest]
    simp [hc]

/-- Splitting after a slash-free first segment peels it off. -/
theorem splitOnSlash_append : ∀ (a r : List Char), ('/' : Char) ∉ a →
    splitOnSlash (a ++ '/' :: r) = a :: splitOnSlash r := by
  intro a
  induction a with
  | nil =>
    intro r _
    rw [List.nil_append, splitOnSlash]
    simp
  | cons c rest ih =>
    intro r hni
    have hc : c ≠ '/' := fun hEq => hni (hEq ▸ List.mem_cons_self c rest)
    have hrest : ('/' : Char) ∉ rest := fun hx => hni (List.mem_cons_of_mem c hx)
    rw [List.cons_append, splitOnSlash]
    rw [ih r hrest]
    simp [hc]

/-- Two writes fuse into one. -/
theorem writeAll_writeAll (b1 b2 : List Char) (st : DState) :
    writeAll b2 (writeAll b1 st) = writeAll (b1 ++ b2) st := by
  simp [writeAll]

/-- Setting a fresh directory appends it at the end of the listing. -/
theorem setDir_fresh (k : String) (sub : FS) :
    ∀ l : List (String × FS), getDir k l = none →
    setDir k sub l = l ++ [(k, sub)] := by
  intro l
  induction l with
  | nil => intro _; rfl
  | cons e rest ih =>
    intro hfresh
    obtain ⟨d, s⟩ := e
    rw [getDir] at hfresh
    by_cases hd : (d == k) = true
    · rw [if_pos hd] at hfresh
      cases hfresh
    · rw [if_neg hd] at hfresh
      rw [setDir, if_neg hd, ih hfresh]
      simp

/-- Freshness is preserved under appending a directory with another
name. -/
theorem getDir_append_none (k k2 : String) (sub : FS)
    (l : List (String × FS)) (hl : getDir k l = none) (hne : k2 ≠ k) :
    getDir k (l ++ [(k2, sub)]) = none := by
  induction l with
  | nil =>
    have : (k2 == k) = false := by
      simp [hne]
    simp [getDir, this]
  | cons e rest ih =>
    obtain ⟨d, s⟩ := e
    rw [getDir] at hl
    by_cases hd : (d == k) = true
    · rw [if_pos hd] at hl
      cases hl
    · rw [if_neg hd] at hl
      rw [List.cons_append, getDir, if_neg hd]
      exact ih hl

/-- Classification facts for a plain inline field. -/
theorem plainField_facts (f : SField) (hp : PlainField f) :
    fieldKept f = true ∧ (f.jsonTag == "-") = false ∧ tagOptions f = [] ∧
    isDistributable f = false ∧ effName f = f.goName := by
  obtain ⟨htag, hdf, hunex, hanon, tok, hval⟩ := hp
  refine ⟨?_, ?_, ?_, ?_, ?_⟩
  · simp [fieldKept, hanon, hunex]
  · rw [htag]
    rfl
  · simp [tagOptions, htag, splitTag]
  · simp [isDistributable, hdf]
  · simp [effName, htag, splitTag]

/-- One step of the field loop on a plain inline field: it is appended to
the fragment and the loop continues with the flag set. -/
theorem encodeFields_plain_step (path : String) (f : SField)
    (rest : List SField) (buf : List Char) (hwf : Bool) (st : List JSONFile)
    (hp : PlainField f) (tok : List Char) (hval : f.value = Value.vprim tok) :
    encodeFields path (f :: rest) buf hwf st =
      encodeFields path rest
        (buf ++ (if hwf then (",".data) else []) ++
          ("\"".data) ++ f.goName.data ++ ("\":".data) ++ tok) true st := by
  obtain ⟨hkept, htagne, hopts, hdist, hname⟩ := plainField_facts f hp
  rw [encodeFields]
  rw [if_neg (by simp [hkept])]
  rw [if_neg (by simp [htagne])]
  rw [if_neg (by rw [hopts]; decide)]
  rw [if_neg (by rw [hopts]; decide)]
  rw [if_neg (by simp [hdist])]
  rw [hval]
  dsimp only [stdJson]
  rw [hname]

/-- The field loop over plain fields with the first-field flag already
set appends the comma-joined continuation text. -/
theorem encodeFields_plain_rest : ∀ (fields : List SField) (path : String)
    (buf : List Char) (st : List JSONFile), (∀ f ∈ fields, PlainField f) →
    encodeFields path fields buf true st =
      .ok (buf ++ restFieldsText fields, true, st) := by
  intro fields
  induction fields with
  | nil =>
    intro path buf st _
    rw [encodeFields]
    simp [restFieldsText]
  | cons f rest ih =>
    intro path buf st hall
    have hp := hall f (by simp)
    obtain ⟨tok, hval⟩ := hp.2.2.2.2
    rw [encodeFields_plain_step path f rest buf true st hp tok hval]
    rw [ih path _ st (fun g hg => hall g (by simp [hg]))]
    simp [restFieldsText, fieldText, primTok, hval, List.append_assoc]

/-- The field loop over plain fields from a fresh fragment appends the
full comma-joined field text. -/
theorem encodeFields_plain_first (fields : List SField) (path : String)
    (buf : List Char) (st : List JSONFile) (hne : fields ≠ [])
    (hall : ∀ f ∈ fields, PlainField f) :
    encodeFields path fields buf false st =
      .ok (buf ++ fieldsText fields, true, st) := by
  cases fields with
  | nil => exact absurd rfl hne
  | cons f rest =>
    have hp := hall f (by simp)
    obtain ⟨tok, hval⟩ := hp.2.2.2.2
    rw [encodeFields_plain_step path f rest buf false st hp tok hval]
    rw [encodeFields_plain_rest rest path _ st (fun g hg => hall g (by simp [hg]))]
    simp [fieldsText, fieldText, primTok, hval, List.append_assoc]

/-- The pointer-to-struct branch on a nonempty plain struct emits exactly
the canonical object text. -/
theorem encodePtr_plain (path : String) (fields : List SField)
    (st : List JSONFile) (hne : fields ≠ [])
    (hall : ∀ f ∈ fields, PlainField f) :
    encodePtr path fields st = .ok (st ++ [⟨path, structText fields⟩]) := by
  unfold encodePtr
  rw [encodeFields_plain_first fields path ("\x7b".data) st hne hall]
  simp [finishPtr, structText, List.append_assoc]

/-- The artifact the encoder produces for one good map entry. -/
def entryArtifact (path : String) (e : String × Value) : JSONFile :=
  ⟨encodeMapChildPath path e.1, structText (structFieldsOf e.2)⟩

/-- The associative branch over good entries appends one artifact per
entry, in order, at the map child paths. -/
theorem encodeEntries_good : ∀ (entries : List (String × Value))
    (path : String) (st : List JSONFile),
    (∀ e ∈ entries, ∃ fields, e.2 = Value.vstruct fields ∧ fields ≠ [] ∧
      ∀ f ∈ fields, PlainField f) →
    encodeEntries path entries st =
      .ok (st ++ entries.map (entryArtifact path)) := by
  intro entries
  induction entries with
  | nil =>
    intro path st _
    rw [encodeEntries]
    simp
  | cons e rest ih =>
    intro path st hall
    obtain ⟨k, v⟩ := e
    obtain ⟨fields, hv, hne, hpf⟩ := hall (k, v) (by simp)
    rw [encodeEntries]
    dsimp only at hv ⊢
    rw [hv]
    have hED : encodeData (encodeMapChildPath path k) (Value.vstruct fields) st =
        .ok (st ++ [⟨encodeMapChildPath path k, structText fields⟩]) := by
      rw [show encodeData (encodeMapChildPath path k) (Value.vstruct fields) st =
        encodePtr (encodeMapChildPath path k) fields st from rfl]
      exact encodePtr_plain _ fields st hne hpf
    rw [hED]
    dsimp only
    rw [ih path _ (fun e2 he2 => hall e2 (by simp [he2]))]
    simp [entryArtifact, hv, structFieldsOf, List.append_assoc]

/-- Relative segments of a slash-free filename directly under the
base. -/
theorem relSegs_base_file (D f : String) (hf : ('/' : Char) ∉ f.data) :
    relSegs D (D ++ "/" ++ f) = some [f] := by
  unfold relSegs
  have hdata : (D ++ "/" ++ f).data = (D.data ++ ("/".data)) ++ f.data := rfl
  rw [hdata]
  rw [if_pos (by exact listStarts_append (D.data ++ ("/".data)) f.data)]
  have hlen : (D.data ++ ("/".data)).length = D.data.length + 1 := by simp
  have hdrop : ((D.data ++ ("/".data)) ++ f.data).drop (D.data.length + 1) =
      f.data := by
    rw [← hlen, List.drop_left]
  rw [hdrop, splitOnSlash_noSlash f.data hf]
  rfl

/-- Writing the single struct artifact yields one file under the base. -/
theorem writeFS_single (D f : String) (body : List Char)
    (hf : ('/' : Char) ∉ f.data) :
    writeFS D [⟨D ++ "/" ++ f, body⟩] = FS.node [(f, body)] [] := by
  unfold writeFS
  rw [writeArtifacts]
  dsimp only
  rw [relSegs_base_file D f hf]
  dsimp only
  rw [writeArtifacts]
  rfl

/-- Relative segments of a map entry's artifact path: the key directory,
then the index file. -/
theorem relSegs_entry (D fname k : String) (hfn : ('/' : Char) ∉ fname.data)
    (hk : ('/' : Char) ∉ k.data) :
    relSegs D (encodeMapChildPath (D ++ "/" ++ fname) k) =
      some [k, "index.json"] := by
  rw [encodeMapChildPath, pathDir_append D fname hfn]
  unfold relSegs
  have hdata : (D ++ "/" ++ k ++ "/index.json").data =
      (D.data ++ ("/".data)) ++ (k.data ++ ('/' :: ("index.json".data))) := by
    show ((D.data ++ ("/".data)) ++ k.data) ++ ("/index.json".data) =
      (D.data ++ ("/".data)) ++ (k.data ++ ('/' :: ("index.json".data)))
    rw [List.append_assoc]
  rw [hdata]
  rw [if_pos (by exact listStarts_append (D.data ++ ("/".data)) _)]
  have hlen : (D.data ++ ("/".data)).length = D.data.length + 1 := by simp
  have hdrop : ((D.data ++ ("/".data)) ++
      (k.data ++ ('/' :: ("index.json".data)))).drop (D.data.length + 1) =
      k.data ++ ('/' :: ("index.json".data)) := by
    rw [← hlen, List.drop_left]
  rw [hdrop, splitOnSlash_append k.data _ hk]
  rw [splitOnSlash_noSlash ("index.json".data) (by decide)]
  rfl

/-- The directory a good map entry becomes on disk: the key directory
holding one index file with the entry's object text. -/
def entryLeaf (e : String × Value) : String × FS :=
  (e.1, FS.node [("index.json", structText (structFieldsOf e.2))] [])

/-- Writing the artifacts of good entries under fresh distinct keys
appends one key directory per entry, in order. -/
theorem writeArtifacts_entries : ∀ (entries : List (String × Value))
    (D fname : String) (dirs0 : List (String × FS)),
    ('/' : Char) ∉ fname.data →
    (∀ e ∈ entries, GoodKey e.1) →
    (entries.map Prod.fst).Nodup →
    (∀ e ∈ entries, getDir e.1 dirs0 = none) →
    writeArtifacts D (entries.map (entryArtifact (D ++ "/" ++ fname)))
        (FS.node [] dirs0) =
      FS.node [] (dirs0 ++ entries.map entryLeaf) := by
  intro entries
  induction entries with
  | nil =>
    intro D fname dirs0 _ _ _ _
    rw [List.map_nil, writeArtifacts]
    simp
  | cons e rest ih =>
    intro D fname dirs0 hfn hkeys hnodup hfresh
    obtain ⟨k, v⟩ := e
    rw [List.map_cons, writeArtifacts]
    try dsimp only
    rw [show (entryArtifact (D ++ "/" ++ fname) (k, v)).Path =
      encodeMapChildPath (D ++ "/" ++ fname) k from rfl]
    rw [relSegs_entry D fname k hfn (hkeys (k, v) (by simp)).2]
    try dsimp only
    rw [fsInsert]
    rw [hfresh (k, v) (by simp)]
    try dsimp only
    rw [setDir_fresh k _ dirs0 (hfresh (k, v) (by simp))]
    have hkfresh : k ∉ rest.map Prod.fst := (List.nodup_cons.mp hnodup).1
    rw [ih D fname _ hfn (fun e2 he2 => hkeys e2 (by simp [he2]))
      (List.nodup_cons.mp hnodup).2 ?hfresh2]
    · simp [entryLeaf, List.append_assoc, fsInsert, entryArtifact]
    case hfresh2 =>
      intro e2 he2
      refine getDir_append_none e2.1 k _ dirs0 (hfresh e2 (by simp [he2])) ?_
      intro hEq
      exact hkfresh (hEq ▸ List.mem_map_of_mem Prod.fst he2)

/-- String equality from equal character lists. -/
theorem strExt (a b : String) (h : a.data = b.data) : a = b := by
  cases a
  cases b
  cases h
  rfl

/-- The decoder's child read path ends in the index file name. -/
theorem pathBase_childPath (topDir k : String) :
    pathBase (decodeChildPath topDir k) = "index.json" := by
  have h : decodeChildPath topDir k =
      (topDir ++ "/" ++ k) ++ "/" ++ "index.json" := by
    apply strExt
    simp [decodeChildPath, strData_append, List.append_assoc]
  rw [h]
  exact pathBase_append _ _ (by decide)

/-- Decoding a leaf directory holding just an index file appends the file
body: the node is read closed and has no children to splice. -/
theorem decodeFS_leaf (cs : ConflictSource) (path : String) (body : List Char)
    (st : DState) (hcs : cs path = none)
    (hbase : pathBase path = "index.json") :
    decodeFS cs (FS.node [("index.json", body)] []) path st =
      some (writeAll body st) := by
  rw [decodeFS, hcs]
  dsimp only
  rw [hbase]
  rw [show lookupFile ("index.json") [("index.json", body)] = some body by
    simp [lookupFile]]
  dsimp only
  rw [decodeChildren]
  rfl

/-- Splicing a list of leaf entry directories with the first-field flag
already set appends the comma-joined member text of the entries. -/
theorem decodeChildren_entries (cs : ConflictSource) (hcs : ∀ p, cs p = none) :
    ∀ (entries : List (String × Value)) (topDir : String) (closed : Bool)
      (st : DState),
    decodeChildren cs (entries.map entryLeaf) topDir closed true st =
      some (writeAll (restEntriesText entries) st, closed) := by
  intro entries
  induction entries with
  | nil =>
    intro topDir closed st
    rw [List.map_nil, decodeChildren]
    simp [restEntriesText, writeAll]
  | cons e rest ih =>
    intro topDir closed st
    obtain ⟨k, v⟩ := e
    rw [List.map_cons]
    rw [show entryLeaf (k, v) =
      (k, FS.node [("index.json", structText (structFieldsOf v))] []) from rfl]
    rw [decodeChildren]
    try dsimp only
    simp only [if_true]
    rw [decodeFS_leaf cs (decodeChildPath topDir k)
      (structText (structFieldsOf v)) _ (hcs _) (pathBase_childPath topDir k)]
    try dsimp only
    rw [ih topDir closed _]
    simp [writeAll, restEntriesText, entryText, List.append_assoc]

/-- C1 amended: for a value in the round-trip class — a pointer-to-struct
of plain inline primitive fields, or an associative map of such structs
under distinct good keys — writing the artifacts returned by a successful
Marshal to disk and decoding the entry path reproduces exactly the
canonical JSON text of the value, identically in both buffers and without
conflict. -/
theorem c1_amended_roundtrip (D fname : String)
    (hfn : GoodKey fname) (v : Value) (hv : GoodValue v)
    (L : List JSONFile)
    (hM : Marshal (D ++ "/" ++ fname) v = .ok L) :
    decodeRun csNone (writeFS D L) (D ++ "/" ++ fname) =
      some ⟨valueText v, valueText v, false⟩ := by
  obtain ⟨hfne, hfns⟩ := hfn
  cases hv with
  | ptr fields hne hpf =>
    have hm : marshal (D ++ "/" ++ fname) (Value.vptr fields) =
        .ok [⟨D ++ "/" ++ fname, structText fields⟩] := by
      show encodePtr (D ++ "/" ++ fname) fields [] = _
      rw [encodePtr_plain _ fields [] hne hpf]
      rfl
    unfold Marshal marshalIndent at hM
    rw [hm] at hM
    obtain ⟨hL, _⟩ := indentAll_ok _ L hM
    subst hL
    rw [writeFS_single D fname (structText fields) hfns]
    unfold decodeRun
    rw [decodeFS]
    rw [show csNone (D ++ "/" ++ fname) = none from rfl]
    dsimp only
    rw [pathBase_append D fname hfns]
    rw [show lookupFile fname [(fname, structText fields)] =
      some (structText fields) by simp [lookupFile]]
    dsimp only
    rw [decodeChildren]
    simp [writeAll, valueText]
  | map entries hstructs hkeys hnodup =>
    have hm : marshal (D ++ "/" ++ fname) (Value.vmap entries) =
        .ok (entries.map (entryArtifact (D ++ "/" ++ fname))) := by
      show encodeEntries (D ++ "/" ++ fname) entries [] = _
      rw [encodeEntries_good entries _ [] hstructs]
      rfl
    unfold Marshal marshalIndent at hM
    rw [hm] at hM
    obtain ⟨hL, _⟩ := indentAll_ok _ L hM
    subst hL
    unfold writeFS
    rw [writeArtifacts_entries entries D fname [] hfns hkeys hnodup
      (fun e _ => rfl)]
    rw [List.nil_append]
    unfold decodeRun
    rw [decodeFS]
    rw [show csNone (D ++ "/" ++ fname) = none from rfl]
    dsimp only
    rw [show lookupFile (pathBase (D ++ "/" ++ fname)) [] = none from rfl]
    dsimp only
    simp only [Bool.not_false, if_true]
    rw [pathDir_append D fname hfns]
    cases entries with
    | nil =>
      rw [List.map_nil, decodeChildren]
      rfl
    | cons e0 rest =>
      obtain ⟨k0, v0⟩ := e0
      rw [List.map_cons]
      rw [show entryLeaf (k0, v0) =
        (k0, FS.node [("index.json", structText (structFieldsOf v0))] [])
        from rfl]
      rw [decodeChildren]
      try dsimp only
      rw [show truncateLastBracket (writeAll (("\x7b".data)) ⟨[], [], false⟩) =
        some (false, writeAll (("\x7b".data)) ⟨[], [], false⟩) from rfl]
      try dsimp only
      simp only [Bool.false_eq_true, if_false]
      try dsimp only
      rw [decodeFS_leaf csNone (decodeChildPath D k0)
        (structText (structFieldsOf v0)) _ rfl (pathBase_childPath D k0)]
      try dsimp only
      rw [decodeChildren_entries csNone (fun _ => rfl) rest D false _]
      try dsimp only
      simp [writeAll, valueText, entriesText, restEntriesText, entryText,
        List.append_assoc]

/-- Witness for C1 amended at a concrete struct with the single inline
field a: the round trip reproduces exactly its canonical text. -/
theorem c1_amended_roundtrip_witness :
    decodeRun csNone
        (writeFS "D" [⟨"D" ++ "/" ++ "data.json", "\x7b\"a\":1\x7d".data⟩])
        ("D" ++ "/" ++ "data.json") =
      some ⟨"\x7b\"a\":1\x7d".data, "\x7b\"a\":1\x7d".data, false⟩ :=
  c1_amended_roundtrip "D" "data.json" ⟨by decide, by decide⟩
    (Value.vptr [fldA])
    (GoodValue.ptr [fldA] (by simp)
      (fun f hf => by
        rw [List.mem_singleton.mp hf]
        exact ⟨rfl, rfl, rfl, rfl, ⟨("1".data), rfl⟩⟩))
    [⟨"D" ++ "/" ++ "data.json", "\x7b\"a\":1\x7d".data⟩] rfl

/- ===== C9: omit-if-empty quirk ===== -/

/-- C9: a struct field whose json tag options contain omitempty is
excluded unconditionally by the encoder's field loop: the loop's whole
result (fragment, first-field flag and artifact list) is the same as if
the field were absent, regardless of the field's actual value. -/
theorem c9_omitempty_unconditional
    (path : String) (pre post : List SField) (f : SField)
    (h : listHasSub (tagOptions f) ("omitempty".data) = true)
    (buf : List Char) (hwf : Bool) (st : List JSONFile) :
    encodeFields path (pre ++ f :: post) buf hwf st =
      encodeFields path (pre ++ post) buf hwf st := by
  induction pre generalizing buf hwf st with
  | nil =>
    simp only [List.nil_append]
    conv_lhs => rw [encodeFields]
    simp [h]
  | cons g pre ih =>
    simp only [List.cons_append, encodeFields]
    split_ifs <;>
      first
        | rfl
        | exact ih buf hwf st
        | (cases hE : encodeData (encodeFieldChildPath path (effName g)) g.value st with
            | error e => rfl
            | ok st2 => exact ih buf hwf st2)
        | (cases hS : stdJson g.value with
            | none => rfl
            | some tok => exact ih _ true st)

/-- Witness for C9: with the omitempty-tagged field o placed before the
inline field a, the loop's result equals the one without o. -/
theorem c9_omitempty_witness :
    listHasSub (tagOptions fldO) ("omitempty".data) = true ∧
    encodeFields "D/data.json" ([] ++ fldO :: [fldA]) ("\x7b".data) false [] =
      encodeFields "D/data.json" ([] ++ [fldA]) ("\x7b".data) false [] :=
  ⟨rfl, c9_omitempty_unconditional "D/data.json" [] [fldA] fldO rfl
    ("\x7b".data) false []⟩

end DFJ
